import Mathlib

/-!  Verification development for a convolutional-LSTM cell
(`convolutional_lstm.py`) and its training/inference harness (`tfmodel.py`).

A tensor is modelled as a shape together with a total index function.
Framework numeric kernels (convolution execution, sigmoid, tanh, the
realized values of learned variables) are abstracted as parameters; every
piece of control logic — validation, splitting, concatenation, gate
arithmetic, the training loop, prediction and checkpoint paths — is
translated from the source. -/

namespace HandsNN

/-- A tensor: a shape together with total data indexed by multi-indices.
Indices are lists of naturals; entries beyond an axis bound are
unconstrained, and theorems quantify over the meaningful indices. -/
structure Tensor (α : Type) where
  shape : List Nat
  data : List Nat → α

instance [Inhabited α] : Inhabited (Tensor α) := ⟨⟨[], fun _ => default⟩⟩

/-- Elementwise unary map (models framework elementwise ops such as
`math_ops.sigmoid` and `math_ops.tanh` applied by the cell). -/
def Tensor.map (f : α → β) (t : Tensor α) : Tensor β :=
  ⟨t.shape, fun i => f (t.data i)⟩

/-- Elementwise binary op; the result carries the first operand's shape
(the source only ever combines same-shaped tensors, so broadcasting is not
modelled). -/
def Tensor.map2 (f : α → β → γ) (t : Tensor α) (u : Tensor β) : Tensor γ :=
  ⟨t.shape, fun i => f (t.data i) (u.data i)⟩

/-- `array_ops.split(value=t, num_or_size_splits=n, axis=k)`:
`n` equal parts along axis `k`; part `j` reads channel block `j`. -/
def Tensor.splitAxis (t : Tensor α) (n k : Nat) : List (Tensor α) :=
  (List.range n).map fun j =>
    ⟨t.shape.set k (t.shape.getD k 0 / n),
     fun i => t.data (i.set k (i.getD k 0 + j * (t.shape.getD k 0 / n)))⟩

/-- `array_ops.concat([t, u], axis=k)`. -/
def Tensor.concatAxis (t u : Tensor α) (k : Nat) : Tensor α :=
  ⟨t.shape.set k (t.shape.getD k 0 + u.shape.getD k 0),
   fun i =>
     if i.getD k 0 < t.shape.getD k 0 then t.data i
     else u.data (i.set k (i.getD k 0 - t.shape.getD k 0))⟩

/-- `array_ops.zeros(shape)`. -/
def Tensor.zeros (α : Type) [Zero α] (shape : List Nat) : Tensor α :=
  ⟨shape, fun _ => 0⟩

/-- The `strides` argument handed to the convolution op: `conv1d` receives
the scalar `1`, `conv2d`/`conv3d` receive `shape_length*[1]`. -/
inductive Strides where
  | scalar : Nat → Strides
  | list : List Nat → Strides
deriving DecidableEq, Inhabited

/-- Every stride entry is 1. -/
def Strides.isAllOnes : Strides → Bool
  | .scalar n => n == 1
  | .list l => l.all (· == 1)

/-- Description of the single convolution `_conv` performs: which of
`conv1d`/`conv2d`/`conv3d` was chosen (`conv_ndims` = 1, 2 or 3), the
tensor fed to it, the shape of the learned `"kernel"` variable, the
strides, the padding string, and whether (and with which shape and start
value) the learned `"biases"` variable is added.  The numeric outcome is
the framework's and is abstracted by an evaluator parameter elsewhere. -/
structure ConvResult (α : Type) where
  conv_ndims : Nat
  convInput : Tensor α
  kernelShape : List Nat
  strides : Strides
  padding : String
  withBias : Bool
  biasShape : List Nat
  biasStart : α

instance [Inhabited α] : Inhabited (ConvResult α) :=
  ⟨⟨0, default, [], default, "", false, [], default⟩⟩

/-- The validation loop of `_conv`: for each argument shape, in order,
first raise unless its rank is 3, 4 or 5, then raise unless its rank
matches the first argument's rank (`len0`); otherwise accumulate the
last axis extent into the running depth total. -/
def checkAndDepth (len0 : Nat) : List (List Nat) → Nat → Except String Nat
  | [], acc => .ok acc
  | s :: rest, acc =>
    if s.length = 3 ∨ s.length = 4 ∨ s.length = 5 then
      if s.length ≠ len0 then
        .error "Conv Linear expects all args to be of same Dimensiton"
      else
        checkAndDepth len0 rest (acc + s.getLastD 0)
    else
      .error "Conv Linear expects 3D, 4D or 5D arguments"

/-- `_conv(args, filter_size, num_features, bias, bias_start)` from
`convolutional_lstm.py`: validate the argument ranks, pick
`conv1d`/`conv2d`/`conv3d` from the common rank (3/4/5 means 1-D/2-D/3-D),
build the `"kernel"` variable shape `filter_size + [total_depth,
num_features]`, concatenate the arguments along the channel axis
(`shape_length - 1`) when more than one is given, and run one convolution
with the chosen strides and `"SAME"` padding, optionally followed by a
learned bias of shape `[num_features]`. -/
def _conv (args : List (Tensor α)) (filter_size : List Nat)
    (num_features : Nat) (bias : Bool) (bias_start : α) :
    Except String (ConvResult α) :=
  match args with
  | [] => .error "IndexError: list index out of range"
  | a0 :: rest =>
    let shapes := (a0 :: rest).map Tensor.shape
    let shape_length := a0.shape.length
    match checkAndDepth shape_length shapes 0 with
    | .error e => .error e
    | .ok total_arg_size_depth =>
      let strides : Strides :=
        if shape_length = 3 then .scalar 1
        else .list (List.replicate shape_length 1)
      let kernelShape := filter_size ++ [total_arg_size_depth, num_features]
      let convInput :=
        if rest.isEmpty then a0
        else rest.foldl (fun acc t => acc.concatAxis t (shape_length - 1)) a0
      .ok ⟨shape_length - 2, convInput, kernelShape, strides, "SAME",
           bias, [num_features], bias_start⟩

/-- `ConvLSTMCell` configuration, as stored by `__init__`. -/
structure ConvLSTMCell where
  conv_ndims : Nat
  input_shape : List Nat
  output_channels : Nat
  kernel_shape : List Nat
  use_bias : Bool
  forget_bias : ℚ
  skip_connection : Bool
  total_output_channels : Nat
deriving DecidableEq

/-- `ConvLSTMCell.__init__`: records `conv_ndims = len(kernel_shape)` and
the configuration, and computes `total_output_channels`, adding
`input_shape[-1]` when `skip_connection` is set (which raises an
`IndexError` if `input_shape` is empty).  No other validation occurs. -/
def ConvLSTMCell.init (input_shape : List Nat) (output_channels : Nat)
    (kernel_shape : List Nat) (use_bias : Bool) (skip_connection : Bool)
    (forget_bias : ℚ) : Except String ConvLSTMCell :=
  let conv_ndims := kernel_shape.length
  if skip_connection then
    match input_shape.getLast? with
    | none => .error "IndexError: list index out of range"
    | some inChannels =>
      .ok ⟨conv_ndims, input_shape, output_channels, kernel_shape, use_bias,
           forget_bias, skip_connection, output_channels + inChannels⟩
  else
    .ok ⟨conv_ndims, input_shape, output_channels, kernel_shape, use_bias,
         forget_bias, skip_connection, output_channels⟩

/-- `output_size` property: `input_shape[:-1] + [total_output_channels]`. -/
def ConvLSTMCell.output_size (cell : ConvLSTMCell) : List Nat :=
  cell.input_shape.dropLast ++ [cell.total_output_channels]

/-- `state_size` property: `input_shape[:-1] + [output_channels]`. -/
def ConvLSTMCell.state_size (cell : ConvLSTMCell) : List Nat :=
  cell.input_shape.dropLast ++ [cell.output_channels]

/-- `zero_state(batch_size, dtype)`: both components are zero tensors of
shape `[batch_size] + input_shape[:-1] + [total_output_channels]`. -/
def ConvLSTMCell.zero_state (α : Type) [Zero α] (cell : ConvLSTMCell)
    (batch_size : Nat) : Tensor α × Tensor α :=
  let shape := batch_size :: (cell.input_shape.dropLast
      ++ [cell.total_output_channels])
  (Tensor.zeros α shape, Tensor.zeros α shape)

/-- `ConvLSTMCell.call(inputs, state)`.  `convEval` abstracts the
framework's execution of the convolution described by `_conv` (it closes
over the realized `"kernel"`/`"biases"` variables); `sigmoid` and `tanh`
abstract `math_ops.sigmoid`/`math_ops.tanh`.  The rest is translated
line by line: split the convolution result into 4 parts along axis
`conv_ndims + 1`, gate order `input_gate, new_input, forget_gate,
output_gate`, and the LSTM arithmetic, with the skip concatenation along
the last axis. -/
def ConvLSTMCell.call (cell : ConvLSTMCell)
    (convEval : ConvResult ℚ → Tensor ℚ) (sigmoid tanh : ℚ → ℚ)
    (inputs : Tensor ℚ) (state : Tensor ℚ × Tensor ℚ) :
    Except String (Tensor ℚ × (Tensor ℚ × Tensor ℚ)) :=
  let c := state.1
  let hidden := state.2
  match _conv [inputs, hidden] cell.kernel_shape (4 * cell.output_channels)
      cell.use_bias 0 with
  | .error e => .error e
  | .ok cr =>
    let new_hidden := convEval cr
    let gates := new_hidden.splitAxis 4 (cell.conv_ndims + 1)
    let input_gate := gates.getD 0 new_hidden
    let new_input := gates.getD 1 new_hidden
    let forget_gate := gates.getD 2 new_hidden
    let output_gate := gates.getD 3 new_hidden
    let new_cell := Tensor.map2 (· + ·)
      (Tensor.map2 (· * ·)
        (Tensor.map sigmoid (Tensor.map (· + cell.forget_bias) forget_gate)) c)
      (Tensor.map2 (· * ·)
        (Tensor.map sigmoid input_gate) (Tensor.map tanh new_input))
    let output := Tensor.map2 (· * ·)
      (Tensor.map tanh new_cell) (Tensor.map sigmoid output_gate)
    let output2 :=
      if cell.skip_connection then
        output.concatAxis inputs (output.shape.length - 1)
      else output
    .ok (output2, (new_cell, output2))

/-! ## Training/inference harness (`tfmodel.py`) -/

/-- Modelled from the spec: `chunks` comes from the repository's `misc`
module, which is not among the provided sources.  Per the spec it
"partitions the shuffled indices into consecutive fixed-size chunks
(batches) — the final chunk may be smaller than the configured batch size
if the count does not divide evenly". -/
def chunks : List α → Nat → List (List α)
  | _, 0 => []
  | [], _ => []
  | x :: xs, n + 1 =>
    ((x :: xs).take (n + 1)) :: chunks ((x :: xs).drop (n + 1)) (n + 1)
termination_by l _ => l.length
decreasing_by
  simp only [List.length_drop, List.length_cons]
  omega

/-- The working index list at the end of epoch `e`: `random.shuffle`
mutates the list in place at the start of every epoch, so epoch `e`
shuffles (with that epoch's fresh randomness, abstracted as `sh e`) the
list left behind by epoch `e - 1`. -/
def epochOrders (sh : Nat → List ι → List ι) (indices : List ι) : Nat → List ι
  | 0 => sh 0 indices
  | e + 1 => sh (e + 1) (epochOrders sh indices e)

/-- `TFModel.train`'s batch structure: one entry per epoch, each epoch the
`chunks` partition of that epoch's freshly shuffled working list. -/
def trainBatches (sh : Nat → List ι → List ι) (indices : List ι)
    (epochs batch_size : Nat) : List (List (List ι)) :=
  (List.range epochs).map fun e => chunks (epochOrders sh indices e) batch_size

/-- Observable events of the inner training loop: each batch triggers one
`session.run([summary, optimizer], ...)` (one optimizer step) followed by
one `writer.add_summary(...)`. -/
inductive TrainEvent (ι : Type) where
  | sessionRun (batch : List ι)
  | addSummary (batch : List ι)
deriving DecidableEq

/-- Whether an event is the optimizer step of a batch. -/
def TrainEvent.isRun : TrainEvent ι → Bool
  | .sessionRun _ => true
  | .addSummary _ => false

/-- Whether an event is the summary record of a batch. -/
def TrainEvent.isSummary : TrainEvent ι → Bool
  | .sessionRun _ => false
  | .addSummary _ => true

/-- The event trace of `TFModel.train`: per batch, in loop order, one
optimizer step then one summary record. -/
def trainEvents (sh : Nat → List ι → List ι) (indices : List ι)
    (epochs batch_size : Nat) : List (TrainEvent ι) :=
  (trainBatches sh indices epochs batch_size).flatten.flatMap fun b =>
    [TrainEvent.sessionRun b, TrainEvent.addSummary b]

/-- `TFModel.predict(images, indices)`: select `images[indices]`
(defaulting to all indices in order), and for each selected image run the
forward path on the singleton batch `[image]` and threshold every logit at
zero (`pred_labels = tf.greater(logits, 0)`).  `network` abstracts the
per-image forward path `self.logits` with the session's realized
parameters; its result is a height-by-width grid of logits. -/
def predict (network : Image → List (List ℚ)) [Inhabited Image]
    (images : List Image) (indices : Option (List Nat)) :
    List (List (List Bool)) :=
  let idxs := match indices with
    | none => List.range images.length
    | some is => is
  let selected := idxs.map fun i => images.getD i default
  selected.map fun img =>
    (network img).map fun row => row.map fun x => decide (0 < x)

/-- The batches fed to `session.run` during `predict`: one singleton
batch `[image]` per selected image, in selection order (no batching). -/
def predictRuns (Image : Type) [Inhabited Image] (images : List Image)
    (indices : Option (List Nat)) : List (List Image) :=
  let idxs := match indices with
    | none => List.range images.length
    | some is => is
  idxs.map fun i => [images.getD i default]

/-- Modelled from the spec: the framework `Saver` ("format is owned by the
external framework, not specified here") is abstracted as a key-value
store from checkpoint locations to parameter snapshots. -/
def CkptStore (P : Type) := String → Option P

/-- `TFModel._save_model(path)`: `saver.save(session, path + "/model.ckpt")`
writes the current parameters at location `path + "/model.ckpt"`. -/
def _save_model (store : CkptStore P) (params : P) (path : String) :
    CkptStore P :=
  fun k => if k = path ++ "/model.ckpt" then some params else store k

/-- `TFModel._load_model(path)`:
`saver.restore(session, path + "/model.ckpt")` reads the parameters at
location `path + "/model.ckpt"`. -/
def _load_model (store : CkptStore P) (path : String) : Option P :=
  store (path ++ "/model.ckpt")

/-! ### Reference/mutation model for `train`'s index handling

Python lists are heap objects mutated in place by `random.shuffle`.  A
tiny heap makes the frame property of `train` statable: object ids to
contents, with a bump allocator. -/

/-- A heap of Python list objects. -/
structure PyHeap (ι : Type) where
  objs : Nat → List ι
  nextId : Nat

/-- Allocate a fresh list object holding `l`. -/
def PyHeap.alloc (h : PyHeap ι) (l : List ι) : Nat × PyHeap ι :=
  (h.nextId, ⟨fun i => if i = h.nextId then l else h.objs i, h.nextId + 1⟩)

/-- Overwrite the contents of object `r` in place. -/
def PyHeap.write (h : PyHeap ι) (r : Nat) (l : List ι) : PyHeap ι :=
  ⟨fun i => if i = r then l else h.objs i, h.nextId⟩

/-- The heap effects of `TFModel.train` on index lists: `indices =
list(indices)` copies the caller's object (or `list(range(len(images)))`
allocates a fresh default) into a fresh object, and each epoch's
`random.shuffle(indices)` (randomness abstracted as `sh e`) rewrites that
fresh object in place.  `session.run` and `chunks` only read. -/
def trainHeap (h : PyHeap ι) (indicesArg : Option Nat)
    (defaultIndices : List ι) (sh : Nat → List ι → List ι)
    (epochs : Nat) : PyHeap ι :=
  let ra := match indicesArg with
    | none => h.alloc defaultIndices
    | some callerRef => h.alloc (h.objs callerRef)
  (List.range epochs).foldl
    (fun acc e => acc.write ra.1 (sh e (acc.objs ra.1))) ra.2

/-! ### Concrete instances used by claim witnesses -/

/-! ### Concrete step scenario used by witnesses -/

/-- A concrete 2-D step input: batch 1, 2x2 spatial, 3 channels. -/
def tIn : Tensor ℚ := ⟨[1, 2, 2, 3], fun i => (i.sum : ℚ)⟩

/-- A concrete previous hidden tensor with 2 channels. -/
def tHid : Tensor ℚ := ⟨[1, 2, 2, 2], fun i => (i.sum : ℚ)⟩

/-- A concrete previous cell-memory tensor. -/
def tCellMem : Tensor ℚ := ⟨[1, 2, 2, 2], fun _ => (1 : ℚ)⟩

/-- A concrete no-skip cell: `init [2,2,3] 2 [3,3] true false 1`. -/
def cellW : ConvLSTMCell := ⟨2, [2, 2, 3], 2, [3, 3], true, 1, false, 2⟩

/-- A concrete convolution evaluator producing an 8-channel result. -/
def convEvalW : ConvResult ℚ → Tensor ℚ :=
  fun _ => ⟨[1, 2, 2, 8], fun i => (i.sum : ℚ)⟩

/-- A concrete stand-in for the sigmoid nonlinearity. -/
def sgW : ℚ → ℚ := fun x => x + 1

/-- A concrete stand-in for the tanh nonlinearity. -/
def thW : ℚ → ℚ := fun x => 2 * x

/-- The convolution description produced in the concrete scenario. -/
def crW : ConvResult ℚ :=
  (_conv [tIn, tHid] cellW.kernel_shape (4 * cellW.output_channels)
    cellW.use_bias 0).toOption.getD default

/-- The step results in the concrete scenario. -/
def callW : Tensor ℚ × (Tensor ℚ × Tensor ℚ) :=
  (cellW.call convEvalW sgW thW tIn (tCellMem, tHid)).toOption.getD default

/-- A concrete skip-connection cell: `init [2,2,3] 2 [3,3] true true 1`. -/
def cellW5 : ConvLSTMCell := ⟨2, [2, 2, 3], 2, [3, 3], true, 1, true, 5⟩

/-- A previous hidden tensor with `total_output_channels = 5` channels. -/
def tHid5 : Tensor ℚ := ⟨[1, 2, 2, 5], fun i => (i.sum : ℚ)⟩

/-- A previous cell-memory tensor for the skip scenario. -/
def tCellMem5 : Tensor ℚ := ⟨[1, 2, 2, 5], fun _ => (1 : ℚ)⟩

/-- The convolution description in the skip scenario. -/
def crW5 : ConvResult ℚ :=
  (_conv [tIn, tHid5] cellW5.kernel_shape (4 * cellW5.output_channels)
    cellW5.use_bias 0).toOption.getD default

/-- The step results in the skip scenario. -/
def callW5 : Tensor ℚ × (Tensor ℚ × Tensor ℚ) :=
  (cellW5.call convEvalW sgW thW tIn (tCellMem5, tHid5)).toOption.getD default

/-- The shuffle oracle for the concrete training witness. -/
def shW : Nat → List Nat → List Nat := fun _ l => l.reverse

/-- The concrete index list for the training witness. -/
def idxW : List Nat := [10, 11, 12, 13, 14]

/-- The forward path of the concrete prediction witness. -/
def netW4 : ℚ → List (List ℚ) := fun x => [[x]]

/-- The image store of the concrete prediction witness. -/
def imagesW4 : List ℚ := [1, -2]

/-- The concrete heap for the mutation-frame witness: one caller-owned
list object. -/
def heapW : PyHeap Nat :=
  ⟨fun i => if i = 0 then [1, 2, 3] else [], 1⟩

/-! ## List helpers -/

theorem getD_set_self (l : List Nat) (k v : Nat) (h : k < l.length) :
    (l.set k v).getD k 0 = v := by
  simp [List.getD, List.getElem?_set_self, h]

theorem getLastD_cons_concat (b : Nat) (xs : List Nat) (t : Nat) :
    (b :: (xs ++ [t])).getLastD 0 = t := by
  rw [← List.cons_append, List.getLastD_concat]

/-! ## Characterization of the `_conv` validation loop -/

/-- The loop accepts exactly when every shape has rank 3, 4 or 5 and every
rank equals the first argument's rank. -/
theorem checkAndDepth_ok_iff (len0 : Nat) (shapes : List (List Nat))
    (acc : Nat) :
    (∃ d, checkAndDepth len0 shapes acc = .ok d) ↔
      ∀ s ∈ shapes,
        (s.length = 3 ∨ s.length = 4 ∨ s.length = 5) ∧ s.length = len0 := by
  induction shapes generalizing acc with
  | nil => simp [checkAndDepth]
  | cons s rest ih =>
    by_cases h3 : s.length = 3 ∨ s.length = 4 ∨ s.length = 5
    · by_cases hl : s.length = len0
      · have h3l : len0 = 3 ∨ len0 = 4 ∨ len0 = 5 := hl ▸ h3
        simp [checkAndDepth, h3, hl, h3l, ih]
      · simp [checkAndDepth, h3, hl]
    · simp [checkAndDepth, h3]

/-- `_conv` on a nonempty argument list errors exactly when the loop
rejects. -/
theorem _conv_error_iff (a0 : Tensor α) (rest : List (Tensor α))
    (fs : List Nat) (nf : Nat) (b : Bool) (bs : α) :
    (∃ e, _conv (a0 :: rest) fs nf b bs = .error e) ↔
      ¬ ∀ t ∈ a0 :: rest,
        (t.shape.length = 3 ∨ t.shape.length = 4 ∨ t.shape.length = 5) ∧
          t.shape.length = a0.shape.length := by
  have hmap : (∀ s ∈ (a0 :: rest).map Tensor.shape,
      (s.length = 3 ∨ s.length = 4 ∨ s.length = 5) ∧
        s.length = a0.shape.length) ↔
      ∀ t ∈ a0 :: rest,
        (t.shape.length = 3 ∨ t.shape.length = 4 ∨ t.shape.length = 5) ∧
          t.shape.length = a0.shape.length := by
    constructor
    · intro h t ht
      exact h t.shape (List.mem_map_of_mem Tensor.shape ht)
    · intro h s hs
      obtain ⟨t, ht, rfl⟩ := List.mem_map.mp hs
      exact h t ht
  rw [← hmap,
    ← checkAndDepth_ok_iff a0.shape.length ((a0 :: rest).map Tensor.shape) 0]
  constructor
  · rintro ⟨e, he⟩ ⟨d, hd⟩
    rw [_conv, hd] at he
    exact Except.noConfusion he
  · intro h
    cases hc : checkAndDepth a0.shape.length ((a0 :: rest).map Tensor.shape) 0 with
    | error e => exact ⟨e, by rw [_conv, hc]⟩
    | ok d => exact absurd ⟨d, hc⟩ h

/-- `_conv` in the accepting case: the unique convolution description. -/
theorem _conv_ok (a0 : Tensor α) (rest : List (Tensor α)) (fs : List Nat)
    (nf : Nat) (b : Bool) (bs : α) (d : Nat)
    (hc : checkAndDepth a0.shape.length ((a0 :: rest).map Tensor.shape) 0
        = .ok d) :
    _conv (a0 :: rest) fs nf b bs =
      .ok ⟨a0.shape.length - 2,
        (if rest.isEmpty then a0
         else rest.foldl
             (fun acc t => acc.concatAxis t (a0.shape.length - 1)) a0),
        fs ++ [d, nf],
        (if a0.shape.length = 3 then .scalar 1
         else .list (List.replicate a0.shape.length 1)),
        "SAME", b, [nf], bs⟩ := by
  rw [_conv, hc]

/-- `__init__` without skip-connection: always succeeds. -/
theorem init_false_eq (ish : List Nat) (C : Nat) (ks : List Nat) (ub : Bool)
    (fb : ℚ) :
    ConvLSTMCell.init ish C ks ub false fb =
      .ok ⟨ks.length, ish, C, ks, ub, fb, false, C⟩ := rfl

/-- `__init__` with skip-connection on a nonempty `input_shape`:
succeeds, adding the input channel count. -/
theorem init_true_eq (ish : List Nat) (C : Nat) (ks : List Nat) (ub : Bool)
    (fb : ℚ) (x : Nat) (hx : ish.getLast? = some x) :
    ConvLSTMCell.init ish C ks ub true fb =
      .ok ⟨ks.length, ish, C, ks, ub, fb, true, C + x⟩ := by
  rw [ConvLSTMCell.init]
  simp [hx]

/-- Inversion for a successful `__init__`: the stored configuration. -/
theorem init_ok_inv (ish : List Nat) (C : Nat) (ks : List Nat) (ub sk : Bool)
    (fb : ℚ) (cell : ConvLSTMCell)
    (hinit : ConvLSTMCell.init ish C ks ub sk fb = .ok cell) :
    cell = ⟨ks.length, ish, C, ks, ub, fb, sk,
      C + (if sk then ish.getLastD 0 else 0)⟩ ∧
    (sk = true → ish ≠ []) := by
  cases sk with
  | false =>
    rw [init_false_eq, Except.ok.injEq] at hinit
    simp [← hinit]
  | true =>
    cases hx : ish.getLast? with
    | none =>
      rw [ConvLSTMCell.init] at hinit
      rw [hx] at hinit
      simp at hinit
    | some x =>
      rw [init_true_eq ish C ks ub fb x hx, Except.ok.injEq] at hinit
      have hne : ish ≠ [] := by
        intro hempty
        rw [hempty] at hx
        exact Option.noConfusion hx
      simp [← hinit, hne, List.getLastD_eq_getLast?, hx]

/-! ## Claims -/

/-- C1 (counterexample): constructing a `ConvLSTMCell` with a
`kernel_shape` of length 0 — and likewise of length 4 — succeeds; no
configuration error is raised at construction, refuting the claim that
lengths 0 and 4+ fail there. -/
theorem construct_len0_succeeds :
    ConvLSTMCell.init [8, 8, 3] 4 [] true false 1 =
      .ok ⟨0, [8, 8, 3], 4, [], true, 1, false, 4⟩ ∧
    ConvLSTMCell.init [8, 8, 3] 4 [1, 1, 1, 1] true false 1 =
      .ok ⟨4, [8, 8, 3], 4, [1, 1, 1, 1], true, 1, false, 4⟩ :=
  ⟨rfl, rfl⟩

/-- C1 (amended): construction performs no `kernel_shape` validation at
all — it succeeds for every length (provided `input_shape` is nonempty
when `skip_connection` is set, which otherwise trips `input_shape[-1]`)
and records `conv_ndims = len(kernel_shape)`.  The dimensionality check
happens only at the first convolution: on step inputs of rank
`len(kernel_shape) + 2`, the convolution sub-operation succeeds and
selects 1-D/2-D/3-D convolution exactly when the length is 1, 2 or 3, and
fails with a configuration error when the length is 0 or at least 4. -/
theorem construct_no_kernel_validation (ish : List Nat) (C : Nat)
    (ks : List Nat) (ub sk : Bool) (fb : ℚ)
    (h : sk = false ∨ ish ≠ []) :
    ∃ cell, ConvLSTMCell.init ish C ks ub sk fb = .ok cell ∧
      cell.conv_ndims = ks.length ∧
      ∀ (args : List (Tensor ℚ)) (nf : Nat) (b : Bool) (bs : ℚ),
        args ≠ [] → (∀ t ∈ args, t.shape.length = ks.length + 2) →
        ((1 ≤ ks.length ∧ ks.length ≤ 3 →
          ∃ cr, _conv args ks nf b bs = .ok cr ∧ cr.conv_ndims = ks.length) ∧
         ((ks.length = 0 ∨ 4 ≤ ks.length) →
          ∃ e, _conv args ks nf b bs = .error e)) := by
  have hcell : ∃ cell, ConvLSTMCell.init ish C ks ub sk fb = .ok cell ∧
      cell.conv_ndims = ks.length := by
    cases sk with
    | false => exact ⟨_, init_false_eq ish C ks ub fb, rfl⟩
    | true =>
      have hne : ish ≠ [] := by simpa using h
      cases hx : ish.getLast? with
      | none => exact absurd (List.getLast?_eq_none_iff.mp hx) hne
      | some x => exact ⟨_, init_true_eq ish C ks ub fb x hx, rfl⟩
  obtain ⟨cell, hinit, hnd⟩ := hcell
  refine ⟨cell, hinit, hnd, ?_⟩
  rintro args nf b bs hne hranks
  obtain ⟨a0, rest, rfl⟩ : ∃ a0 rest, args = a0 :: rest := by
    cases args with
    | nil => exact absurd rfl hne
    | cons a0 rest => exact ⟨a0, rest, rfl⟩
  have ha0 : a0.shape.length = ks.length + 2 := hranks a0 (by simp)
  constructor
  · rintro ⟨h1, h3⟩
    have hvalid : ∀ s ∈ (a0 :: rest).map Tensor.shape,
        (s.length = 3 ∨ s.length = 4 ∨ s.length = 5) ∧
          s.length = a0.shape.length := by
      intro s hs
      obtain ⟨t, ht, rfl⟩ := List.mem_map.mp hs
      have := hranks t ht
      constructor
      · omega
      · omega
    obtain ⟨d, hd⟩ := (checkAndDepth_ok_iff _ _ 0).mpr hvalid
    exact ⟨_, _conv_ok a0 rest ks nf b bs d hd, by simp [ha0]⟩
  · intro hlen
    refine (_conv_error_iff a0 rest ks nf b bs).mpr ?_
    intro hall
    have := (hall a0 (by simp)).1
    omega

/-- C1 (amended, witness): at `kernel_shape = [3, 3]` with a rank-4
input, construction succeeds with `conv_ndims = 2` and the convolution
succeeds selecting 2-D convolution. -/
theorem construct_no_kernel_validation_witness :
    ∃ cell, ConvLSTMCell.init [8, 8, 3] 4 [3, 3] true false 1 = .ok cell ∧
      cell.conv_ndims = 2 ∧
      ∀ (args : List (Tensor ℚ)) (nf : Nat) (b : Bool) (bs : ℚ),
        args ≠ [] → (∀ t ∈ args, t.shape.length = 4) →
        ((1 ≤ 2 ∧ 2 ≤ 3 →
          ∃ cr, _conv args [3, 3] nf b bs = .ok cr ∧ cr.conv_ndims = 2) ∧
         ((2 = 0 ∨ 4 ≤ 2) → ∃ e, _conv args [3, 3] nf b bs = .error e)) := by
  have h := construct_no_kernel_validation [8, 8, 3] 4 [3, 3] true false 1
    (Or.inl rfl)
  simpa using h

/-- C6: `zero_state(batch_size, dtype)` returns a pair of exactly
zero-valued tensors, both of shape
`[batch, *spatial, effective_output_channels]` where the effective count
is `output_channels + input_channels` when skip-connection is enabled and
`output_channels` otherwise, for every batch size and element type. -/
theorem zero_state_spec (α : Type) [Zero α] (ish : List Nat) (C : Nat)
    (ks : List Nat) (ub sk : Bool) (fb : ℚ) (cell : ConvLSTMCell) (b : Nat)
    (hinit : ConvLSTMCell.init ish C ks ub sk fb = .ok cell) :
    (cell.zero_state α b).1.shape
        = b :: (ish.dropLast ++ [C + (if sk then ish.getLastD 0 else 0)]) ∧
    (cell.zero_state α b).2.shape
        = b :: (ish.dropLast ++ [C + (if sk then ish.getLastD 0 else 0)]) ∧
    ∀ i, (cell.zero_state α b).1.data i = 0 ∧
      (cell.zero_state α b).2.data i = 0 := by
  obtain ⟨rfl, -⟩ := init_ok_inv ish C ks ub sk fb cell hinit
  simp [ConvLSTMCell.zero_state, Tensor.zeros]

/-- C6 (witness): a concrete skip-connection cell built from
`input_shape = [4, 4, 3]`, `output_channels = 2`; its zero state at batch
size 7 has shape `[7, 4, 4, 5]` and zero entries. -/
theorem zero_state_spec_witness :
    (ConvLSTMCell.zero_state Int ⟨2, [4, 4, 3], 2, [3, 3], true, 1, true, 5⟩ 7).1.shape
        = [7, 4, 4, 5] ∧
    (ConvLSTMCell.zero_state Int ⟨2, [4, 4, 3], 2, [3, 3], true, 1, true, 5⟩ 7).1.data
        [0, 0, 0, 0] = 0 := by
  have h := zero_state_spec Int [4, 4, 3] 2 [3, 3] true true 1
    ⟨2, [4, 4, 3], 2, [3, 3], true, 1, true, 5⟩ 7 rfl
  exact ⟨h.1.trans (by decide), (h.2.2 [0, 0, 0, 0]).1⟩

/-- C7: on a nonempty argument list, the convolution sub-operation fails
with a configuration error exactly when some argument's rank is outside
{3, 4, 5} or two arguments disagree in rank; otherwise it performs one
convolution with all-ones strides and `"SAME"` (shape-preserving)
padding, on the single argument when one is given and on the channel-axis
concatenation of the arguments when more than one is given. -/
theorem conv_rank_validation (args : List (Tensor ℚ)) (fs : List Nat)
    (nf : Nat) (b : Bool) (bs : ℚ) (hne : args ≠ []) :
    ((∃ e, _conv args fs nf b bs = .error e) ↔
      (∃ t ∈ args,
        ¬(t.shape.length = 3 ∨ t.shape.length = 4 ∨ t.shape.length = 5)) ∨
      ∃ t ∈ args, ∃ u ∈ args, t.shape.length ≠ u.shape.length) ∧
    ∀ cr, _conv args fs nf b bs = .ok cr →
      cr.padding = "SAME" ∧ cr.strides.isAllOnes = true ∧
      cr.withBias = b ∧
      (∀ a0, args = [a0] → cr.convInput = a0) ∧
      (∀ a0 rest, args = a0 :: rest → rest ≠ [] →
        cr.convInput = rest.foldl
          (fun acc t => acc.concatAxis t (a0.shape.length - 1)) a0) := by
  obtain ⟨a0, rest, rfl⟩ : ∃ a0 rest, args = a0 :: rest := by
    cases args with
    | nil => exact absurd rfl hne
    | cons a0 rest => exact ⟨a0, rest, rfl⟩
  constructor
  · rw [_conv_error_iff]
    constructor
    · intro hnall
      by_cases hbad : ∃ t ∈ a0 :: rest,
          ¬(t.shape.length = 3 ∨ t.shape.length = 4 ∨ t.shape.length = 5)
      · exact Or.inl hbad
      · push_neg at hbad
        right
        by_contra hpair
        push_neg at hpair
        exact hnall fun t ht =>
          ⟨hbad t ht, hpair t ht a0 (by simp)⟩
    · rintro (⟨t, ht, hbad⟩ | ⟨t, ht, u, hu, htu⟩) hall
      · exact hbad (hall t ht).1
      · exact htu ((hall t ht).2.trans (hall u hu).2.symm)
  · intro cr hcr
    cases hc : checkAndDepth a0.shape.length ((a0 :: rest).map Tensor.shape) 0 with
    | error e =>
      rw [_conv, hc] at hcr
      exact Except.noConfusion hcr
    | ok d =>
      rw [_conv_ok a0 rest fs nf b bs d hc, Except.ok.injEq] at hcr
      subst hcr
      refine ⟨rfl, ?_, rfl, ?_, ?_⟩
      · by_cases h3 : a0.shape.length = 3 <;>
          simp [Strides.isAllOnes, h3, List.all_eq_true]
      · intro a ha
        have h1 : a0 = a := (List.cons.injEq _ _ _ _ ▸ ha).1
        have h2 : rest = [] := (List.cons.injEq _ _ _ _ ▸ ha).2
        subst h1; subst h2
        rfl
      · intro a rs ha hrs
        have h1 : a0 = a := (List.cons.injEq _ _ _ _ ▸ ha).1
        have h2 : rest = rs := (List.cons.injEq _ _ _ _ ▸ ha).2
        subst h1; subst h2
        simp [List.isEmpty_iff, hrs]

/-- C7 (witness): a single rank-4 argument passes validation (no error),
and the resulting convolution has `"SAME"` padding, unit strides, and the
argument itself as input; a rank-2 argument list is rejected. -/
theorem conv_rank_validation_witness :
    (¬ ∃ e, _conv [Tensor.mk [2, 4, 4, 3] (fun _ => (0 : ℚ))] [3, 3] 8
        true 0 = .error e) ∧
    ∀ cr, _conv [Tensor.mk [2, 4, 4, 3] (fun _ => (0 : ℚ))] [3, 3] 8
        true 0 = .ok cr →
      cr.padding = "SAME" ∧ cr.strides.isAllOnes = true ∧
      cr.withBias = true ∧
      (∀ a0, [Tensor.mk [2, 4, 4, 3] (fun _ => (0 : ℚ))] = [a0] →
        cr.convInput = a0) ∧
      (∀ a0 rest,
        [Tensor.mk [2, 4, 4, 3] (fun _ => (0 : ℚ))] = a0 :: rest →
        rest ≠ [] →
        cr.convInput = rest.foldl
          (fun acc t => acc.concatAxis t (a0.shape.length - 1)) a0) := by
  have h := conv_rank_validation
    [Tensor.mk [2, 4, 4, 3] (fun _ => (0 : ℚ))] [3, 3] 8 true 0
    (by simp)
  refine ⟨?_, h.2⟩
  rw [h.1]
  push_neg
  constructor
  · rintro t ht
    simp only [List.mem_singleton] at ht
    subst ht
    simp
  · rintro t ht u hu
    simp only [List.mem_singleton] at ht hu
    subst ht; subst hu
    rfl

/-- Shape of a channel-axis concatenation. -/
theorem concatAxis_shape (t u : Tensor α) (k : Nat) :
    (t.concatAxis u k).shape
      = t.shape.set k (t.shape.getD k 0 + u.shape.getD k 0) := rfl

/-- Reading one of the four parts of a 4-way channel split. -/
theorem splitAxis_four_getD (t : Tensor α) (k : Nat) (d : Tensor α)
    (j : Nat) (hj : j < 4) :
    (t.splitAxis 4 k).getD j d =
      ⟨t.shape.set k (t.shape.getD k 0 / 4),
       fun i => t.data (i.set k (i.getD k 0 + j * (t.shape.getD k 0 / 4)))⟩ := by
  interval_cases j <;> rfl

/-- C2: the step operation splits the combined convolution result into
four equal channel blocks along axis `conv_ndims + 1` (the channel axis),
in the fixed order `input_gate` (block 0), `new_input` (block 1),
`forget_gate` (block 2), `output_gate` (block 3), and returns
`new_cell = sigmoid(forget_gate + forget_bias) * cell +
sigmoid(input_gate) * tanh(new_input)`; the output before any skip
concatenation is `tanh(new_cell) * sigmoid(output_gate)` — it is the
returned output verbatim without skip-connection, and the low-channel
part of the returned output with it. -/
theorem step_gate_formula (cell : ConvLSTMCell)
    (convEval : ConvResult ℚ → Tensor ℚ) (sg th : ℚ → ℚ)
    (inputs c hidden : Tensor ℚ) (cr : ConvResult ℚ)
    (out nc nh2 : Tensor ℚ) (idx : List Nat)
    (hconv : _conv [inputs, hidden] cell.kernel_shape
        (4 * cell.output_channels) cell.use_bias 0 = .ok cr)
    (hcall : cell.call convEval sg th inputs (c, hidden)
        = .ok (out, (nc, nh2))) :
    nc.shape = (convEval cr).shape.set (cell.conv_ndims + 1)
        ((convEval cr).shape.getD (cell.conv_ndims + 1) 0 / 4) ∧
    nc.data idx =
      sg ((convEval cr).data (idx.set (cell.conv_ndims + 1)
            (idx.getD (cell.conv_ndims + 1) 0 +
              2 * ((convEval cr).shape.getD (cell.conv_ndims + 1) 0 / 4)))
          + cell.forget_bias) * c.data idx
      + sg ((convEval cr).data (idx.set (cell.conv_ndims + 1)
            (idx.getD (cell.conv_ndims + 1) 0 +
              0 * ((convEval cr).shape.getD (cell.conv_ndims + 1) 0 / 4))))
        * th ((convEval cr).data (idx.set (cell.conv_ndims + 1)
            (idx.getD (cell.conv_ndims + 1) 0 +
              1 * ((convEval cr).shape.getD (cell.conv_ndims + 1) 0 / 4)))) ∧
    (cell.skip_connection = false →
      out.data idx = th (nc.data idx) * sg ((convEval cr).data
        (idx.set (cell.conv_ndims + 1)
          (idx.getD (cell.conv_ndims + 1) 0 +
            3 * ((convEval cr).shape.getD (cell.conv_ndims + 1) 0 / 4))))) ∧
    (cell.skip_connection = true →
      (convEval cr).shape.length = cell.conv_ndims + 2 →
      idx.getD (cell.conv_ndims + 1) 0 <
          ((convEval cr).shape.getD (cell.conv_ndims + 1) 0 / 4) →
      out.data idx = th (nc.data idx) * sg ((convEval cr).data
        (idx.set (cell.conv_ndims + 1)
          (idx.getD (cell.conv_ndims + 1) 0 +
            3 * ((convEval cr).shape.getD (cell.conv_ndims + 1) 0 / 4))))) := by
  simp only [ConvLSTMCell.call, hconv] at hcall
  rw [Except.ok.injEq, Prod.mk.injEq, Prod.mk.injEq] at hcall
  obtain ⟨hout, hnc, hnh2⟩ := hcall
  subst hout; subst hnc; subst hnh2
  refine ⟨rfl, rfl, ?_, ?_⟩
  · intro hskip
    simp only [hskip, Bool.false_eq_true, if_false]
    rfl
  · intro hskip hlen hidx
    simp only [hskip, if_true]
    rw [splitAxis_four_getD (convEval cr) (cell.conv_ndims + 1)
        (convEval cr) 2 (by omega),
      splitAxis_four_getD (convEval cr) (cell.conv_ndims + 1)
        (convEval cr) 0 (by omega),
      splitAxis_four_getD (convEval cr) (cell.conv_ndims + 1)
        (convEval cr) 1 (by omega),
      splitAxis_four_getD (convEval cr) (cell.conv_ndims + 1)
        (convEval cr) 3 (by omega)]
    have hq : ((convEval cr).shape.set (cell.conv_ndims + 1)
        ((convEval cr).shape.getD (cell.conv_ndims + 1) 0 / 4)).getD
          (cell.conv_ndims + 1) 0
        = (convEval cr).shape.getD (cell.conv_ndims + 1) 0 / 4 :=
      getD_set_self _ _ _ (by omega)
    have h21 : cell.conv_ndims + 2 - 1 = cell.conv_ndims + 1 := rfl
    simp only [Tensor.map2, Tensor.map, Tensor.concatAxis, List.length_set,
      hlen, h21, hq]
    rw [if_pos hidx]

/-- C2 (witness): in the concrete scenario the new cell memory has shape
`[1,2,2,2]` and the gate formula evaluates to explicit rationals at index
`[0,0,0,0]`. -/
theorem step_gate_formula_witness :
    callW.2.1.shape = [1, 2, 2, 2] ∧
    callW.2.1.data [0, 0, 0, 0] = 10 ∧
    callW.1.data [0, 0, 0, 0] = 140 := by
  have h := step_gate_formula cellW convEvalW sgW thW tIn tCellMem tHid crW
    callW.1 callW.2.1 callW.2.2 [0, 0, 0, 0] rfl rfl
  have h2 : callW.2.1.data [0, 0, 0, 0] = 10 := by
    rw [h.2.1]
    norm_num [sgW, thW, convEvalW, cellW, tCellMem]
  refine ⟨h.1.trans (by decide), h2, ?_⟩
  rw [h.2.2.1 rfl, h2]
  norm_num [sgW, thW, convEvalW, cellW]

/-- C5: the step output (which is also the returned hidden state) has
`output_channels` channels without skip-connection, and `output_channels
+ input_channels` channels with it (the gated output channel-concatenated
with the raw input). -/
theorem step_output_channel_count (ish : List Nat) (C : Nat)
    (ks : List Nat) (ub sk : Bool) (fb : ℚ) (cell : ConvLSTMCell)
    (convEval : ConvResult ℚ → Tensor ℚ) (sg th : ℚ → ℚ)
    (inputs c hidden : Tensor ℚ) (cr : ConvResult ℚ) (out nc nh2 : Tensor ℚ)
    (hinit : ConvLSTMCell.init ish C ks ub sk fb = .ok cell)
    (hconv : _conv [inputs, hidden] cell.kernel_shape
        (4 * cell.output_channels) cell.use_bias 0 = .ok cr)
    (hcall : cell.call convEval sg th inputs (c, hidden)
        = .ok (out, (nc, nh2)))
    (hlen : (convEval cr).shape.length = cell.conv_ndims + 2)
    (hch : (convEval cr).shape.getD (cell.conv_ndims + 1) 0
        = 4 * cell.output_channels)
    (hich : inputs.shape.getD (cell.conv_ndims + 1) 0 = ish.getLastD 0) :
    nh2 = out ∧
    (sk = false → out.shape.getD (cell.conv_ndims + 1) 0 = C) ∧
    (sk = true → out.shape.getD (cell.conv_ndims + 1) 0
        = C + ish.getLastD 0) := by
  obtain ⟨hc, -⟩ := init_ok_inv ish C ks ub sk fb cell hinit
  subst hc
  simp only [ConvLSTMCell.call, hconv] at hcall
  rw [Except.ok.injEq, Prod.mk.injEq, Prod.mk.injEq] at hcall
  obtain ⟨hout, hnc, hnh2⟩ := hcall
  subst hout; subst hnc; subst hnh2
  have hlen2 : (convEval cr).shape.length = ks.length + 2 := hlen
  have hch2 : (convEval cr).shape.getD (ks.length + 1) 0 = 4 * C := hch
  refine ⟨rfl, ?_, ?_⟩
  · intro hsk; subst hsk
    show ((convEval cr).shape.set (ks.length + 1)
        ((convEval cr).shape.getD (ks.length + 1) 0 / 4)).getD
          (ks.length + 1) 0 = C
    rw [getD_set_self _ _ _ (by omega), hch2]
    exact Nat.mul_div_cancel_left C (by norm_num)
  · intro hsk; subst hsk
    have hich2 : inputs.shape.getD (ks.length + 1) 0 = ish.getLastD 0 := hich
    have hq : ((convEval cr).shape.set (ks.length + 1)
        ((convEval cr).shape.getD (ks.length + 1) 0 / 4)).getD
          (ks.length + 1) 0
        = (convEval cr).shape.getD (ks.length + 1) 0 / 4 :=
      getD_set_self _ _ _ (by omega)
    show (Tensor.concatAxis _ inputs _).shape.getD (ks.length + 1) 0
        = C + ish.getLastD 0
    rw [concatAxis_shape,
      splitAxis_four_getD (convEval cr) (ks.length + 1)
        (convEval cr) 2 (by omega),
      splitAxis_four_getD (convEval cr) (ks.length + 1)
        (convEval cr) 0 (by omega),
      splitAxis_four_getD (convEval cr) (ks.length + 1)
        (convEval cr) 1 (by omega),
      splitAxis_four_getD (convEval cr) (ks.length + 1)
        (convEval cr) 3 (by omega)]
    simp only [Tensor.map2, Tensor.map, List.length_set, hlen2]
    have h21 : ks.length + 2 - 1 = ks.length + 1 := rfl
    simp only [h21]
    rw [getD_set_self _ _ _ (by rw [List.length_set]; omega), hq, hch2, hich2]
    rw [Nat.mul_div_cancel_left C (by norm_num : 0 < 4)]

/-- C5 (witness): in the skip scenario with `output_channels = 2` and 3
input channels, the returned output (and hidden state) has 5 channels. -/
theorem step_output_channel_count_witness :
    callW5.2.2 = callW5.1 ∧ callW5.1.shape.getD 3 0 = 5 := by
  have h := step_output_channel_count [2, 2, 3] 2 [3, 3] true true 1 cellW5
    convEvalW sgW thW tIn tCellMem5 tHid5 crW5 callW5.1 callW5.2.1 callW5.2.2
    rfl rfl rfl rfl (by decide) (by decide)
  exact ⟨h.1, h.2.2 rfl⟩

/-- C8: with skip-connection enabled, the cell-memory component of
`zero_state` has `output_channels + input_channels` channels, while the
cell-memory produced by a step has only `output_channels` channels and
`state_size` likewise reports `output_channels`; with a nonzero input
channel count the zero state's cell-memory channel count therefore
differs from the one every step produces and consumes. -/
theorem zero_state_cell_channel_mismatch (ish : List Nat) (C : Nat)
    (ks : List Nat) (ub : Bool) (fb : ℚ) (cell : ConvLSTMCell) (b : Nat)
    (convEval : ConvResult ℚ → Tensor ℚ) (sg th : ℚ → ℚ)
    (inputs c hidden : Tensor ℚ) (cr : ConvResult ℚ) (out nc nh2 : Tensor ℚ)
    (hinit : ConvLSTMCell.init ish C ks ub true fb = .ok cell)
    (hpos : 0 < ish.getLastD 0)
    (hconv : _conv [inputs, hidden] cell.kernel_shape
        (4 * cell.output_channels) cell.use_bias 0 = .ok cr)
    (hcall : cell.call convEval sg th inputs (c, hidden)
        = .ok (out, (nc, nh2)))
    (hlen : (convEval cr).shape.length = cell.conv_ndims + 2)
    (hch : (convEval cr).shape.getD (cell.conv_ndims + 1) 0
        = 4 * cell.output_channels) :
    (cell.zero_state ℚ b).1.shape.getLastD 0 = C + ish.getLastD 0 ∧
    nc.shape.getD (cell.conv_ndims + 1) 0 = C ∧
    cell.state_size.getLastD 0 = C ∧
    (cell.zero_state ℚ b).1.shape.getLastD 0 ≠ C := by
  obtain ⟨hc, -⟩ := init_ok_inv ish C ks ub true fb cell hinit
  subst hc
  simp only [ConvLSTMCell.call, hconv] at hcall
  rw [Except.ok.injEq, Prod.mk.injEq, Prod.mk.injEq] at hcall
  obtain ⟨hout, hnc, hnh2⟩ := hcall
  subst hout; subst hnc; subst hnh2
  have hlen2 : (convEval cr).shape.length = ks.length + 2 := hlen
  have hch2 : (convEval cr).shape.getD (ks.length + 1) 0 = 4 * C := hch
  have hzero : (ConvLSTMCell.zero_state ℚ
      ⟨ks.length, ish, C, ks, ub, fb, true,
        C + (if true then ish.getLastD 0 else 0)⟩ b).1.shape.getLastD 0
      = C + ish.getLastD 0 := by
    show (b :: (ish.dropLast ++ [C + (if true then ish.getLastD 0 else 0)])
      ).getLastD 0 = C + ish.getLastD 0
    rw [getLastD_cons_concat]
    simp
  refine ⟨hzero, ?_, ?_, ?_⟩
  · show ((convEval cr).shape.set (ks.length + 1)
        ((convEval cr).shape.getD (ks.length + 1) 0 / 4)).getD
          (ks.length + 1) 0 = C
    rw [getD_set_self _ _ _ (by omega), hch2]
    exact Nat.mul_div_cancel_left C (by norm_num)
  · show (ish.dropLast ++ [C]).getLastD 0 = C
    exact List.getLastD_concat _ _ _
  · rw [hzero]
    omega

/-- C8 (witness): in the concrete skip scenario the zero state's
cell-memory has 5 channels while the step's new cell memory and
`state_size` have 2. -/
theorem zero_state_cell_channel_mismatch_witness :
    (cellW5.zero_state ℚ 4).1.shape.getLastD 0 = 5 ∧
    callW5.2.1.shape.getD 3 0 = 2 ∧
    cellW5.state_size.getLastD 0 = 2 ∧
    (cellW5.zero_state ℚ 4).1.shape.getLastD 0 ≠ 2 := by
  have h := zero_state_cell_channel_mismatch [2, 2, 3] 2 [3, 3] true 1
    cellW5 4 convEvalW sgW thW tIn tCellMem5 tHid5 crW5
    callW5.1 callW5.2.1 callW5.2.2
    rfl (by decide) rfl rfl rfl (by decide)
  exact h

/-! ### Batch-partition lemmas for the training loop -/

theorem getLastD_cons_of_cons (a b : α) (t : List α) (d : α) :
    (a :: b :: t).getLastD d = (b :: t).getLastD d := by
  rw [List.getLastD_eq_getLast?, List.getLastD_eq_getLast?,
    List.getLast?_cons_cons]

/-- `chunks` with batch size 0 (Python would raise in `range`). -/
theorem chunks_zero_eq (l : List α) : chunks l 0 = [] := by
  simp [chunks]

/-- `chunks` on the empty list. -/
theorem chunks_nil_eq (n : Nat) : chunks ([] : List α) (n + 1) = [] := by
  simp [chunks]

/-- `chunks` unfolding on a nonempty list. -/
theorem chunks_cons_eq (x : α) (xs : List α) (n : Nat) :
    chunks (x :: xs) (n + 1)
      = ((x :: xs).take (n + 1)) :: chunks ((x :: xs).drop (n + 1)) (n + 1) := by
  simp [chunks]

/-- `chunks` partitions: concatenating the batches restores the list. -/
theorem chunks_flatten : ∀ (l : List α) (B : Nat), 0 < B →
    (chunks l B).flatten = l := by
  intro l B
  induction l, B using chunks.induct with
  | case1 l => intro h; omega
  | case2 n hn =>
    intro h
    cases n with
    | zero => exact (hn rfl).elim
    | succ m => rw [chunks_nil_eq]; rfl
  | case3 x xs n ih =>
    intro h
    rw [chunks_cons_eq, List.flatten_cons, ih (by omega)]
    exact List.take_append_drop _ _

/-- `chunks` produces `ceil(len / B)` batches. -/
theorem chunks_length : ∀ (l : List α) (B : Nat), 0 < B →
    (chunks l B).length = (l.length + B - 1) / B := by
  intro l B
  induction l, B using chunks.induct with
  | case1 l => intro h; omega
  | case2 n hn =>
    intro h
    cases n with
    | zero => exact (hn rfl).elim
    | succ m =>
      rw [chunks_nil_eq]
      simp only [List.length_nil]
      rw [Nat.div_eq_of_lt (by omega)]
  | case3 x xs n ih =>
    intro h
    rw [chunks_cons_eq]
    simp only [List.length_cons, List.length_drop] at ih ⊢
    rw [ih (by omega)]
    rcases Nat.lt_or_ge (xs.length + 1) (n + 1 + 1) with hlt | hge
    · have h0 : xs.length + 1 - (n + 1) = 0 := by omega
      have h1 : xs.length + 1 + (n + 1) - 1 = xs.length + (n + 1) := by omega
      rw [h0, h1, Nat.div_eq_of_lt (by omega),
        Nat.add_div_right _ (by omega), Nat.div_eq_of_lt (by omega)]
    · have h2 : xs.length + 1 - (n + 1) + (n + 1) - 1 = xs.length := by omega
      have h3 : xs.length + 1 + (n + 1) - 1 = xs.length + (n + 1) := by omega
      rw [h2, h3, Nat.add_div_right _ (by omega)]

/-- A nonempty list yields at least one batch. -/
theorem chunks_ne_nil (B : Nat) (hB : 0 < B) (l : List α) (hl : l ≠ []) :
    chunks l B ≠ [] := by
  cases l with
  | nil => exact absurd rfl hl
  | cons x xs =>
    cases B with
    | zero => omega
    | succ n => rw [chunks_cons_eq]; exact List.cons_ne_nil _ _

/-- The last batch has size `len mod B`, or `B` when `B` divides `len`. -/
theorem chunks_getLast_length : ∀ (l : List α) (B : Nat), 0 < B → l ≠ [] →
    ((chunks l B).getLastD []).length
      = if l.length % B = 0 then B else l.length % B := by
  intro l B
  induction l, B using chunks.induct with
  | case1 l => intro h _; omega
  | case2 n hn => intro _ hl; exact absurd rfl hl
  | case3 x xs n ih =>
    intro h hl
    rw [chunks_cons_eq]
    by_cases hdrop : (x :: xs).drop (n + 1) = []
    · rw [hdrop, chunks_nil_eq]
      have hlen : xs.length + 1 ≤ n + 1 := by
        have := congrArg List.length hdrop
        simp only [List.length_drop, List.length_cons, List.length_nil] at this
        omega
      have hsing : ([(x :: xs).take (n + 1)]).getLastD ([] : List α)
          = (x :: xs).take (n + 1) := List.getLastD_concat _ _ []
      rw [hsing, List.length_take]
      simp only [List.length_cons]
      rcases Nat.lt_or_ge (xs.length + 1) (n + 1) with hlt | hge
      · rw [Nat.mod_eq_of_lt hlt, if_neg (by omega),
          Nat.min_eq_right (by omega)]
      · have heq : xs.length + 1 = n + 1 := by omega
        rw [heq, Nat.mod_self, if_pos rfl, Nat.min_self]
    · obtain ⟨y, ys, hd⟩ : ∃ y ys, (x :: xs).drop (n + 1) = y :: ys := by
        cases hd : (x :: xs).drop (n + 1) with
        | nil => exact absurd hd hdrop
        | cons y ys => exact ⟨y, ys, rfl⟩
      rw [hd, chunks_cons_eq, getLastD_cons_of_cons, ← chunks_cons_eq, ← hd,
        ih (by omega) hdrop]
      have hgt : n + 1 < xs.length + 1 := by
        by_contra hle
        push_neg at hle
        exact hdrop (List.drop_eq_nil_of_le (by simpa using hle))
      have hmod : ((x :: xs).drop (n + 1)).length % (n + 1)
          = (xs.length + 1) % (n + 1) := by
        simp only [List.length_drop, List.length_cons]
        conv_rhs => rw [show xs.length + 1
          = (xs.length + 1 - (n + 1)) + (n + 1) by omega]
        rw [Nat.add_mod_right]
      rw [hmod]
      simp only [List.length_cons]

/-- Every epoch's working order is a permutation of the original
indices. -/
theorem epochOrders_perm (sh : Nat → List ι → List ι)
    (hsh : ∀ e l, List.Perm (sh e l) l) (indices : List ι) :
    ∀ e, List.Perm (epochOrders sh indices e) indices
  | 0 => hsh 0 indices
  | e + 1 => (hsh (e + 1) _).trans (epochOrders_perm sh hsh indices e)

/-- One optimizer-step event per batch. -/
theorem countP_run_events (L : List (List ι)) :
    (L.flatMap fun b =>
      [TrainEvent.sessionRun b, TrainEvent.addSummary b]).countP
        TrainEvent.isRun = L.length := by
  induction L with
  | nil => rfl
  | cons b L ih =>
    rw [List.flatMap_cons, List.countP_append, ih]
    simp [List.countP_cons, TrainEvent.isRun]
    omega

/-- One summary-record event per batch. -/
theorem countP_summary_events (L : List (List ι)) :
    (L.flatMap fun b =>
      [TrainEvent.sessionRun b, TrainEvent.addSummary b]).countP
        TrainEvent.isSummary = L.length := by
  induction L with
  | nil => rfl
  | cons b L ih =>
    rw [List.flatMap_cons, List.countP_append, ih]
    simp [List.countP_cons, TrainEvent.isSummary]
    omega

/-- Reading an entry of a mapped range. -/
theorem getD_map_range (E : Nat) (f : Nat → List (List ι)) (e : Nat)
    (he : e < E) :
    (((List.range E).map f).getD e []) = f e := by
  simp [List.getD, List.getElem?_eq_getElem, he]

/-- C3: training for `E` epochs over `N` indices with batch size `B`
performs exactly `E` epoch passes; each epoch's batches partition that
epoch's freshly shuffled working list (a permutation of the `N` indices,
produced by applying the epoch's own shuffle to the working list, so a
new permutation each epoch rather than one fixed shuffle reused) into
`ceil(N/B)` consecutive batches whose last batch has size `N mod B` (or
`B` when `B` divides `N`); and one optimizer step plus one summary record
is produced per batch. -/
theorem train_epoch_batches (ι : Type) (sh : Nat → List ι → List ι)
    (indices : List ι) (E B : Nat)
    (hsh : ∀ e l, List.Perm (sh e l) l) (hB : 0 < B)
    (hne : indices ≠ []) :
    (trainBatches sh indices E B).length = E ∧
    (∀ e, e < E →
      ((trainBatches sh indices E B).getD e []).flatten
          = epochOrders sh indices e ∧
      List.Perm ((trainBatches sh indices E B).getD e []).flatten indices ∧
      ((trainBatches sh indices E B).getD e []).length
          = (indices.length + B - 1) / B ∧
      (((trainBatches sh indices E B).getD e []).getLastD []).length
          = if indices.length % B = 0 then B else indices.length % B) ∧
    (∀ e, epochOrders sh indices (e + 1)
        = sh (e + 1) (epochOrders sh indices e)) ∧
    (trainEvents sh indices E B).countP TrainEvent.isRun
        = E * ((indices.length + B - 1) / B) ∧
    (trainEvents sh indices E B).countP TrainEvent.isSummary
        = E * ((indices.length + B - 1) / B) := by
  have horder : ∀ e, List.Perm (epochOrders sh indices e) indices :=
    epochOrders_perm sh hsh indices
  have hlen : ∀ e, (epochOrders sh indices e).length = indices.length :=
    fun e => (horder e).length_eq
  have hone : ∀ e, (epochOrders sh indices e) ≠ [] := by
    intro e hnil
    exact hne (List.eq_nil_of_length_eq_zero (by rw [← hlen e, hnil]; rfl))
  have hgetD : ∀ e, e < E → (trainBatches sh indices E B).getD e []
      = chunks (epochOrders sh indices e) B := by
    intro e he
    exact getD_map_range E _ e he
  refine ⟨by simp [trainBatches], ?_, fun e => rfl, ?_, ?_⟩
  · intro e he
    rw [hgetD e he]
    refine ⟨chunks_flatten _ B hB, ?_, ?_, ?_⟩
    · rw [chunks_flatten _ B hB]
      exact horder e
    · rw [chunks_length _ B hB, hlen e]
    · rw [chunks_getLast_length _ B hB (hone e), hlen e]
  · rw [trainEvents, countP_run_events, List.length_flatten, trainBatches,
      List.map_map]
    have hmap : ((List.range E).map
        (List.length ∘ fun e => chunks (epochOrders sh indices e) B))
        = (List.range E).map (fun _ => (indices.length + B - 1) / B) := by
      apply List.map_congr_left
      intro e _
      show (chunks (epochOrders sh indices e) B).length = _
      rw [chunks_length _ B hB, hlen e]
    rw [hmap, List.map_const', List.sum_replicate, List.length_range,
      smul_eq_mul]
  · rw [trainEvents, countP_summary_events, List.length_flatten,
      trainBatches, List.map_map]
    have hmap : ((List.range E).map
        (List.length ∘ fun e => chunks (epochOrders sh indices e) B))
        = (List.range E).map (fun _ => (indices.length + B - 1) / B) := by
      apply List.map_congr_left
      intro e _
      show (chunks (epochOrders sh indices e) B).length = _
      rw [chunks_length _ B hB, hlen e]
    rw [hmap, List.map_const', List.sum_replicate, List.length_range,
      smul_eq_mul]

/-- C3 (witness): 2 epochs over 5 indices with batch size 2 give 2 epoch
passes of 3 batches each, a last batch of size 1, and 6 optimizer steps
and 6 summary records. -/
theorem train_epoch_batches_witness :
    (trainBatches shW idxW 2 2).length = 2 ∧
    ((trainBatches shW idxW 2 2).getD 0 []).length = 3 ∧
    List.Perm ((trainBatches shW idxW 2 2).getD 0 []).flatten idxW ∧
    (((trainBatches shW idxW 2 2).getD 1 []).getLastD []).length = 1 ∧
    (trainEvents shW idxW 2 2).countP TrainEvent.isRun = 6 ∧
    (trainEvents shW idxW 2 2).countP TrainEvent.isSummary = 6 := by
  have h := train_epoch_batches Nat shW idxW 2 2
    (fun _ l => l.reverse_perm) (by decide) (by decide)
  exact ⟨h.1, (h.2.1 0 (by decide)).2.2.1, (h.2.1 0 (by decide)).2.1,
    (h.2.1 1 (by decide)).2.2.2, h.2.2.2.1, h.2.2.2.2⟩

/-- C4: predicting over a selection of `K` indices returns exactly `K`
boolean per-pixel maps, in the order of the supplied indices; each
selected image is fed through the forward path alone (every
`session.run` batch is a singleton), and each pixel's predicted label is
its logit thresholded at zero (`logit > 0`); the result is shaped
`[K, height, width]`. -/
theorem predict_selection (Image : Type) [Inhabited Image]
    (network : Image → List (List ℚ)) (images : List Image)
    (idxs : List Nat) (hgt wid : Nat)
    (hh : ∀ img, (network img).length = hgt)
    (hw : ∀ img, ∀ row ∈ network img, row.length = wid) :
    (predict network images (some idxs)).length = idxs.length ∧
    (∀ j, j < idxs.length →
      (predict network images (some idxs)).getD j []
        = (network (images.getD (idxs.getD j 0) default)).map
            (fun row => row.map fun x => decide (0 < x))) ∧
    (∀ m ∈ predict network images (some idxs),
      m.length = hgt ∧ ∀ row ∈ m, row.length = wid) ∧
    (predictRuns Image images (some idxs)).length = idxs.length ∧
    (∀ r ∈ predictRuns Image images (some idxs), r.length = 1) := by
  refine ⟨by simp [predict], ?_, ?_, by simp [predictRuns], ?_⟩
  · intro j hj
    simp only [predict, List.map_map, List.getD, List.getElem?_map,
      List.getElem?_eq_getElem hj]
    simp [List.getD, List.getElem?_eq_getElem hj]
  · intro m hm
    simp only [predict, List.map_map, List.mem_map] at hm
    obtain ⟨i, -, rfl⟩ := hm
    constructor
    · simp [hh]
    · intro row hrow
      simp only [Function.comp, List.mem_map] at hrow
      obtain ⟨row0, hrow0, rfl⟩ := hrow
      simp [hw _ row0 hrow0]
  · intro r hr
    simp only [predictRuns, List.mem_map] at hr
    obtain ⟨i, -, rfl⟩ := hr
    rfl

/-- C4 (witness): selecting indices `[1, 0]` over two one-pixel images
returns two maps in selection order with logits thresholded at zero. -/
theorem predict_selection_witness :
    (predict netW4 imagesW4 (some [1, 0])).length = 2 ∧
    (predict netW4 imagesW4 (some [1, 0])).getD 0 [] = [[false]] ∧
    (predict netW4 imagesW4 (some [1, 0])).getD 1 [] = [[true]] ∧
    (∀ r ∈ predictRuns ℚ imagesW4 (some [1, 0]), r.length = 1) := by
  have h := predict_selection ℚ netW4 imagesW4 [1, 0] 1 1
    (fun _ => rfl) (by intro img row hrow; simp [netW4] at hrow; simp [hrow])
  refine ⟨h.1, ?_, ?_, h.2.2.2.2⟩
  · rw [h.2.1 0 (by decide)]
    norm_num [netW4, imagesW4]
  · rw [h.2.1 1 (by decide)]
    norm_num [netW4, imagesW4]

/-- C9: saving a parameter snapshot writes it at `<path>/model.ckpt` and
touches no other location; loading reads `<path>/model.ckpt`, so a
save/load round trip with an unchanged network restores exactly the saved
parameters and hence reproduces identical prediction outputs for the same
inputs. -/
theorem save_load_roundtrip (P : Type) (store : CkptStore P) (p : P)
    (path : String) :
    _load_model (_save_model store p path) path = some p ∧
    (∀ k, k ≠ path ++ "/model.ckpt" → _save_model store p path k = store k) ∧
    ∀ (Image : Type) [Inhabited Image]
      (netF : P → Image → List (List ℚ)) (images : List Image)
      (idxs : Option (List Nat)),
      (_load_model (_save_model store p path) path).map
          (fun q => predict (netF q) images idxs)
        = some (predict (netF p) images idxs) := by
  refine ⟨?_, ?_, ?_⟩
  · simp [_load_model, _save_model]
  · intro k hk
    simp [_save_model, hk]
  · intro Image inst netF images idxs
    simp [_load_model, _save_model]

/-- C9 (witness): a concrete round trip through an empty store restores
the saved parameter and yields the same predictions. -/
theorem save_load_roundtrip_witness :
    _load_model (_save_model (fun _ => none) (42 : ℚ) "/tmp/m") "/tmp/m"
        = some 42 ∧
    _save_model (fun _ => none) (42 : ℚ) "/tmp/m" "/tmp/other" = none ∧
    (_load_model (_save_model (fun _ => none) (42 : ℚ) "/tmp/m") "/tmp/m").map
        (fun q => predict (fun x : ℚ => [[q * x]]) imagesW4 (some [0]))
      = some (predict (fun x : ℚ => [[(42 : ℚ) * x]]) imagesW4 (some [0])) := by
  have h := save_load_roundtrip ℚ (fun _ => none) 42 "/tmp/m"
  exact ⟨h.1, h.2.1 "/tmp/other" (by decide),
    h.2.2 ℚ (fun q x => [[q * x]]) imagesW4 (some [0])⟩

/-- C10: `train` called with an explicit `indices` argument copies it
with `list(indices)` into a fresh object before the per-epoch in-place
`random.shuffle`, so the caller's list object is unchanged when `train`
returns. -/
theorem train_preserves_caller_indices (ι : Type) (h : PyHeap ι)
    (callerRef : Nat) (defaultIndices : List ι)
    (sh : Nat → List ι → List ι) (E : Nat)
    (hvalid : callerRef < h.nextId) :
    (trainHeap h (some callerRef) defaultIndices sh E).objs callerRef
      = h.objs callerRef := by
  have hne : callerRef ≠ h.nextId := by omega
  have key : ∀ (L : List Nat) (acc : PyHeap ι),
      acc.objs callerRef = h.objs callerRef →
      (L.foldl (fun a e => a.write h.nextId (sh e (a.objs h.nextId)))
        acc).objs callerRef = h.objs callerRef := by
    intro L
    induction L with
    | nil => intro acc hacc; exact hacc
    | cons e L ih =>
      intro acc hacc
      rw [List.foldl_cons]
      exact ih _ (by simp [PyHeap.write, hne, hacc])
  show ((List.range E).foldl
      (fun (a : PyHeap ι) (e : Nat) =>
        a.write h.nextId (sh e (a.objs h.nextId)))
      (⟨fun i => if i = h.nextId then h.objs callerRef else h.objs i,
        h.nextId + 1⟩ : PyHeap ι)).objs callerRef = h.objs callerRef
  exact key _ _ (by simp [hne])

/-- C10 (witness): after three epochs of in-place shuffles of the working
copy, the caller's list still holds `[1, 2, 3]`. -/
theorem train_preserves_caller_indices_witness :
    (trainHeap heapW (some 0) [] shW 3).objs 0 = [1, 2, 3] := by
  have h := train_preserves_caller_indices Nat heapW 0 [] shW 3 (by decide)
  exact h.trans rfl

end HandsNN
